import Mathlib

/-!
# Verification of the Knowledge-RAGbot retrieval-and-ranking pipeline

Shallow embedding of the core retrieval pipeline of the repository
(`app/core/ingestion/chunker.py`, `app/core/ingestion/indexer.py`,
`app/core/ingestion/embedder.py`, `app/core/retrieval/retriever.py`,
`app/core/retrieval/ranker.py`, `app/core/retrieval/reranker.py`) together
with theorems settling the specification claims about it.

Modelling conventions:
* Python `str` is modelled as `List Char` (a sequence of code points).
* Python `float` scores are modelled as `ℚ`: every claim proved here is a
  comparison/ordering property, not a rounding property.
* Python dictionaries keyed by `int` are modelled as insertion-ordered
  association lists (`List (Nat × _)`), matching Python's dict iteration
  order semantics.
* Functions that can raise return `Except String _`; functions that never
  raise return plain values.
-/

/-- Python strings as lists of characters. -/
abbrev PyStr := List Char

/-! ## Chunker (`app/core/ingestion/chunker.py`) -/

/-- Find the leftmost occurrence of the (non-empty) separator `sep` in
`text`: returns `some (before, after)` where `before` is the text before
the occurrence and `after` the text after it, or `none` when `sep` does
not occur.  Helper for modelling Python `str.split`. -/
def findSep (sep : PyStr) : PyStr → Option (PyStr × PyStr)
  | [] => none
  | c :: rest =>
    if sep.isPrefixOf (c :: rest) then some ([], (c :: rest).drop sep.length)
    else
      match findSep sep rest with
      | none => none
      | some (pre, post) => some (c :: pre, post)

/-- Fuelled splitting loop; each found occurrence of a non-empty separator
consumes at least one character, so `text.length` fuel always suffices. -/
def pySplitFuel (sep : PyStr) : Nat → PyStr → List PyStr
  | 0, text => [text]
  | fuel + 1, text =>
    match findSep sep text with
    | none => [text]
    | some (pre, post) => pre :: pySplitFuel sep fuel post

/-- Python `text.split(sep)` for a non-empty separator `sep`: split at
every non-overlapping occurrence, scanning left to right.
(`"ab".split("b") == ["a", ""]`, `"".split("b") == [""]`.) -/
def pySplit (sep text : PyStr) : List PyStr :=
  pySplitFuel sep text.length text

/-- `RecursiveChunker._split_text_recursive` (chunker.py lines 142-189).
Recursively split `text` using the separators in priority order: the empty
separator splits into single characters; if a separator produces a single
piece, the next separator is tried; pieces longer than `chunkSize` are
re-split with the remaining separators (the separator is re-appended to
every piece except the last, as in the Python loop). -/
def splitTextRecursive (chunkSize : Nat) : PyStr → List PyStr → List PyStr
  | text, [] => [text]
  | text, sep :: rest =>
    if sep = [] then
      -- base case: split into characters (`list(text)`)
      text.map (fun c => [c])
    else
      let splits := pySplit sep text
      if splits.length = 1 then
        splitTextRecursive chunkSize text rest
      else
        (splits.dropLast.map (fun s => s ++ sep) ++ [splits.getLastD []]).flatMap
          (fun s =>
            if chunkSize < s.length then splitTextRecursive chunkSize s rest
            else [s])

/-- The `Chunk` dataclass (chunker.py lines 9-28); the open `metadata`
dictionary (which only carries caller attributes plus a copy of
`chunk_index`) is elided. -/
structure PyChunk where
  chunkText : PyStr
  docId : PyStr
  chunkIndex : Nat
  startChar : Nat
  endChar : Nat
deriving DecidableEq, Repr

/-- Loop state of `RecursiveChunker.chunk` (chunker.py lines 89-123). -/
structure ChunkAcc where
  chunks : List PyChunk
  currentChunk : List PyStr
  currentLength : Nat
  currentStartChar : Nat
  chunkIndex : Nat
deriving Repr

/-- Python `s[-k:]`.  For `k = 0` Python's `s[-0:]` is `s[0:]`, i.e. the
whole string; for `k > 0` it is the last `min k (length s)` characters. -/
def pyLastChars (s : PyStr) (k : Nat) : PyStr :=
  if k = 0 then s else s.drop (s.length - k)

/-- `chunk_text[-overlap:] if len(chunk_text) > overlap else chunk_text`
(chunker.py line 116). -/
def overlapOf (chunkOverlap : Nat) (chunkText : PyStr) : PyStr :=
  if chunkOverlap < chunkText.length then pyLastChars chunkText chunkOverlap
  else chunkText

/-- One iteration of the accumulation loop of `RecursiveChunker.chunk`
(chunker.py lines 95-123): when adding the next split would exceed the
chunk size and the buffer is non-empty, the buffer is emitted as a chunk
and the next buffer is seeded with the overlap tail of the emitted text. -/
def chunkStep (chunkSize chunkOverlap : Nat) (docId : PyStr)
    (acc : ChunkAcc) (split : PyStr) : ChunkAcc :=
  let splitLength := split.length
  if chunkSize < acc.currentLength + splitLength ∧ acc.currentChunk ≠ [] then
    let chunkText := acc.currentChunk.flatten
    let chunkEndChar := acc.currentStartChar + chunkText.length
    let overlapText := overlapOf chunkOverlap chunkText
    { chunks := acc.chunks ++
        [⟨chunkText, docId, acc.chunkIndex, acc.currentStartChar, chunkEndChar⟩]
      currentChunk := [overlapText, split]
      currentLength := overlapText.length + splitLength
      currentStartChar := chunkEndChar - overlapText.length
      chunkIndex := acc.chunkIndex + 1 }
  else
    { acc with
        currentChunk := acc.currentChunk ++ [split]
        currentLength := acc.currentLength + splitLength }

/-- Default separator list of `RecursiveChunker.__init__` (chunker.py
line 55): `["\n\n", "\n", ". ", " ", ""]`. -/
def defaultSeparators : List PyStr :=
  ["\n\n".data, "\n".data, ". ".data, " ".data, []]

/-- `RecursiveChunker.chunk` (chunker.py lines 62-140): empty text yields
`[]`; otherwise the text is split recursively and the splits are
accumulated into overlapping chunks, flushing the final buffer at the
end.  `doc_id` is not validated. -/
def RecursiveChunker.chunk (chunkSize chunkOverlap : Nat)
    (separators : List PyStr) (text docId : PyStr) : List PyChunk :=
  if text = [] then []
  else
    let splits := splitTextRecursive chunkSize text separators
    let acc := splits.foldl (chunkStep chunkSize chunkOverlap docId) ⟨[], [], 0, 0, 0⟩
    if acc.currentChunk ≠ [] then
      let chunkText := acc.currentChunk.flatten
      acc.chunks ++
        [⟨chunkText, docId, acc.chunkIndex, acc.currentStartChar,
          acc.currentStartChar + chunkText.length⟩]
    else acc.chunks

/-- Invariant of the accumulation loop: the tracked length agrees with
the buffer contents, is bounded by `chunkSize + chunkOverlap`, and every
emitted chunk text is bounded by `chunkSize + chunkOverlap`. -/
def AccInv (chunkSize chunkOverlap : Nat) (acc : ChunkAcc) : Prop :=
  acc.currentLength = (acc.currentChunk.map List.length).sum ∧
  acc.currentLength ≤ chunkSize + chunkOverlap ∧
  ∀ c ∈ acc.chunks, c.chunkText.length ≤ chunkSize + chunkOverlap

/-! ## Vector index (`app/core/ingestion/indexer.py`)

`FaissIndexManager` state: the FAISS flat index is modelled as the list of
stored vectors in insertion order (`index.ntotal` = list length,
`index.reconstruct i` = i-th vector); `self.metadata` is an
insertion-ordered association list; `self.index is None` is
`vectors = none`. -/

/-- Metadata dict stored per vector.  Only `doc_id` matters to the claims
(`meta.get("doc_id")` is `none` when the key is absent); the remaining
entries of the Python dict are abstracted into `payload`. -/
structure VecMeta where
  docId : Option String
  payload : String
deriving DecidableEq, Repr, Inhabited

/-- State of a `FaissIndexManager` instance. -/
structure FaissState where
  dimension : Option Nat
  indexType : String
  vectors : Option (List (List ℚ))
  metadata : List (Nat × VecMeta)
  currentId : Nat
deriving DecidableEq, Repr

/-- Python truthiness of an optional integer (`if dimension:`):
`None` and `0` are falsy. -/
def pyTruthyNat : Option Nat → Bool
  | none => false
  | some n => n != 0

/-- `FaissIndexManager.__init__` (indexer.py lines 19-42). -/
def FaissIndexManager.init (dimension : Option Nat) (indexType : String) :
    FaissState :=
  { dimension := dimension, indexType := indexType, vectors := none,
    metadata := [], currentId := 0 }

/-- `FaissIndexManager.create_index` (indexer.py lines 44-71): optionally
update the dimension (with Python truthiness), require a truthy dimension,
require a supported index type, and reset vectors, metadata and the ID
counter. -/
def FaissIndexManager.createIndex (s : FaissState) (dimension : Option Nat) :
    Except String FaissState :=
  let s1 := if pyTruthyNat dimension then { s with dimension := dimension } else s
  if ¬ pyTruthyNat s1.dimension then .error "Dimension must be specified"
  else if s1.indexType = "IndexFlatIP" ∨ s1.indexType = "IndexFlatL2" then
    .ok { s1 with vectors := some [], metadata := [], currentId := 0 }
  else .error "Unsupported index type"

/-- Python dict assignment `m[k] = v` on an insertion-ordered dict:
overwrite in place when the key exists, else append. -/
def dictInsert (m : List (Nat × VecMeta)) (k : Nat) (v : VecMeta) :
    List (Nat × VecMeta) :=
  if m.any (fun p => p.1 = k) then
    m.map (fun p => if p.1 = k then (k, v) else p)
  else m ++ [(k, v)]

/-- Python `m.get(k)` on the metadata dict. -/
def dictGet (m : List (Nat × VecMeta)) (k : Nat) : Option VecMeta :=
  (m.find? (fun p => p.1 = k)).map (fun p => p.2)

/-- `FaissIndexManager.add_vectors` (indexer.py lines 73-114): raises when
the index has not been created, raises on a length mismatch, otherwise
appends the embeddings, stores metadata under fresh sequential IDs
starting at the current high-water mark, and returns the assigned IDs. -/
def FaissIndexManager.addVectors (s : FaissState) (embeddings : List (List ℚ))
    (metadataList : List VecMeta) : Except String (FaissState × List Nat) :=
  match s.vectors with
  | none => .error "Index not created. Call create_index() first."
  | some vecs =>
    if embeddings.length ≠ metadataList.length then
      .error "Number of embeddings must match metadata list length"
    else
      let startId := s.currentId
      let vectorIds := (List.range metadataList.length).map (fun i => startId + i)
      let metadata := (vectorIds.zip metadataList).foldl
        (fun m p => dictInsert m p.1 p.2) s.metadata
      .ok ({ s with vectors := some (vecs ++ embeddings),
                    metadata := metadata,
                    currentId := s.currentId + embeddings.length }, vectorIds)

/-- One search result of `FaissIndexManager.search`: the raw FAISS id and
distance, the converted similarity score, and the spread-in metadata
(`self.metadata.get(idx, {})` — `none` models the missing-entry default). -/
structure SearchResult where
  faissId : Nat
  score : ℚ
  distance : ℚ
  meta : Option VecMeta
deriving DecidableEq, Repr

/-- Inner product of two stored vectors. -/
def dotProduct (a b : List ℚ) : ℚ := ((a.zip b).map (fun p => p.1 * p.2)).sum

/-- Squared L2 distance (FAISS `IndexFlatL2` reports squared distances). -/
def sqDist (a b : List ℚ) : ℚ := ((a.zip b).map (fun p => (p.1 - p.2) ^ 2)).sum

/-- `FaissIndexManager.search` (indexer.py lines 116-171): empty or absent
index returns `[]` (a normal value, not an error); otherwise exact flat
search scores every stored vector, takes the best `min top_k ntotal`
(largest inner product for `IndexFlatIP`, smallest distance for
`IndexFlatL2`, the latter converted to `1 / (1 + d)`), attaching stored
metadata.  The `idx == -1` guard of the Python loop cannot fire for a flat
index with `k ≤ ntotal` and is omitted; dimension-mismatched queries
(which raise inside FAISS) are outside the model. -/
def FaissIndexManager.search (s : FaissState) (query : List ℚ) (topK : Nat) :
    List SearchResult :=
  match s.vectors with
  | none => []
  | some vecs =>
    if vecs.length = 0 then []
    else
      let k := min topK vecs.length
      let scored := (List.range vecs.length).map fun i =>
        if s.indexType = "IndexFlatIP" then (i, dotProduct query (vecs.getD i []))
        else (i, sqDist query (vecs.getD i []))
      let ordered :=
        if s.indexType = "IndexFlatIP" then
          scored.mergeSort (fun a b => decide (b.2 ≤ a.2))
        else scored.mergeSort (fun a b => decide (a.2 ≤ b.2))
      (ordered.take k).map fun p =>
        { faissId := p.1
          distance := p.2
          score := if s.indexType = "IndexFlatIP" then p.2 else 1 / (1 + p.2)
          meta := dictGet s.metadata p.1 }

/-- `FaissIndexManager.delete_by_doc_id` (indexer.py lines 173-226):
keep every metadata entry whose `doc_id` differs from the target (dict
iteration order = insertion order), and if anything is deleted, rebuild:
reconstruct the kept vectors, `create_index(self.dimension)`, re-add the
kept vectors with their metadata.  `index.reconstruct` is total here
(`getD`) — reachable states keep every metadata key below `ntotal`. -/
def FaissIndexManager.deleteByDocId (s : FaissState) (docId : String) :
    Except String (FaissState × Nat) :=
  match s.vectors with
  | none => .ok (s, 0)
  | some vecs =>
    let kept := s.metadata.filter (fun p => p.2.docId ≠ some docId)
    let deletedCount := s.metadata.length - kept.length
    if 0 < deletedCount then
      if kept ≠ [] then
        let embeddingsToKeep := kept.map (fun p => vecs.getD p.1 [])
        (FaissIndexManager.createIndex s s.dimension).bind (fun s1 =>
          (FaissIndexManager.addVectors s1 embeddingsToKeep
              (kept.map (fun p => p.2))).map (fun p => (p.1, deletedCount)))
      else
        (FaissIndexManager.createIndex s s.dimension).map
          (fun s1 => (s1, deletedCount))
    else .ok (s, deletedCount)

/-- Result of `FaissIndexManager.get_stats` (indexer.py lines 295-316);
`metadataCount` is only reported for a created index. -/
structure IndexStats where
  totalVectors : Nat
  dimension : Option Nat
  indexType : String
  isTrained : Bool
  metadataCount : Option Nat
deriving DecidableEq, Repr

/-- `FaissIndexManager.get_stats`: flat indexes are always trained. -/
def FaissIndexManager.getStats (s : FaissState) : IndexStats :=
  match s.vectors with
  | none => ⟨0, s.dimension, s.indexType, false, none⟩
  | some vecs => ⟨vecs.length, s.dimension, s.indexType, true, some s.metadata.length⟩

/-- `index.ntotal` of the modelled state (0 when the index is absent). -/
def FaissState.ntotal (s : FaissState) : Nat := (s.vectors.getD []).length

/-- Well-formedness of a populated manager state, maintained by
`create_index`/`add_vectors`: the index exists, the metadata keys are
exactly `0, …, ntotal-1` in insertion order, the dimension is set, the
index type is supported, and the high-water mark equals `ntotal`. -/
def FaissState.WF (s : FaissState) : Prop :=
  s.vectors.isSome = true ∧
  s.metadata.map (fun p => p.1) = List.range s.ntotal ∧
  pyTruthyNat s.dimension = true ∧
  (s.indexType = "IndexFlatIP" ∨ s.indexType = "IndexFlatL2") ∧
  s.currentId = s.ntotal

/-- Parsed on-disk artifacts seen by `load_index` (indexer.py lines
258-293): `index.faiss` (the serialized vector store) and `metadata.pkl`
(metadata map, next-id counter, dimension, index type); `none` means the
file is absent.  Corrupt files (the `except` branch, which returns
`False`) are outside the model: disk contents arrive already parsed. -/
structure DiskState where
  indexFile : Option (List (List ℚ))
  metadataFile : Option (List (Nat × VecMeta) × Nat × Option Nat × String)

/-- `FaissIndexManager.load_index`: missing index file → `False`; index
file present → load vectors, then load the metadata file only if it
exists, and return `True` either way. -/
def FaissIndexManager.loadIndex (s : FaissState) (disk : DiskState) :
    FaissState × Bool :=
  match disk.indexFile with
  | none => (s, false)
  | some vecs =>
    let s1 := { s with vectors := some vecs }
    match disk.metadataFile with
    | none => (s1, true)
    | some (md, cid, dim, itype) =>
      ({ s1 with metadata := md, currentId := cid, dimension := dim,
                 indexType := itype }, true)

/-- A small well-formed index state used to instantiate the index
theorems: three vectors belonging to documents "a", "b", "a". -/
def sampleIndexState : FaissState :=
  { dimension := some 2, indexType := "IndexFlatIP",
    vectors := some [[1, 0], [0, 1], [1, 1]],
    metadata := [(0, ⟨some "a", "c0"⟩), (1, ⟨some "b", "c1"⟩), (2, ⟨some "a", "c2"⟩)],
    currentId := 3 }

/-! ## Semantic retriever (`app/core/retrieval/retriever.py`) -/

/-- Relational `chunks` row (the columns the retriever reads). -/
structure ChunkRow where
  id : Nat
  chunkText : String
  chunkIndex : Nat
  docId : String
  faissId : Nat
  startChar : Nat
  endChar : Nat
deriving DecidableEq, Repr

/-- Relational `documents` row (the columns the retriever reads). -/
structure DocumentRow where
  id : String
  filename : String
  fileType : String
deriving DecidableEq, Repr

/-- The relational store; `db.query(...).filter(...).first()` returns the
first matching row in table order. -/
structure Database where
  chunks : List ChunkRow
  documents : List DocumentRow
deriving Repr

/-- `db.query(Chunk).filter(Chunk.faiss_id == faiss_id).first()`. -/
def Database.findChunkByFaissId (db : Database) (faissId : Nat) :
    Option ChunkRow :=
  db.chunks.find? (fun c => c.faissId = faissId)

/-- `db.query(Document).filter(Document.id == doc_id).first()`. -/
def Database.findDocument (db : Database) (docId : String) :
    Option DocumentRow :=
  db.documents.find? (fun d => d.id = docId)

/-- One enriched result built by `SemanticRetriever.search` (retriever.py
lines 119-130); the open metadata dict and the optional `page` field are
elided. -/
structure RetrievedResult where
  chunkId : Nat
  chunkText : String
  chunkIndex : Nat
  docId : String
  filename : String
  fileType : String
  score : ℚ
  startChar : Nat
  endChar : Nat
deriving DecidableEq, Repr

/-- Retriever configuration resolved in `__init__`: `self.top_k`
(`top_k or settings.top_k_results`, default 5) and
`self.similarity_threshold` (default 0.3). -/
structure RetrieverConfig where
  topK : Nat
  similarityThreshold : ℚ
deriving Repr

/-- Python truthiness of the optional `doc_ids` filter (`if doc_ids:`):
`None` and the empty list are falsy. -/
def pyTruthyList : Option (List String) → Bool
  | none => false
  | some [] => false
  | some (_ :: _) => true

/-- `top_k = top_k or self.top_k` (retriever.py line 76), with Python
truthiness: an absent or zero argument falls back to the configured
value. -/
def effectiveTopK (cfg : RetrieverConfig) : Option Nat → Nat
  | some k => if k ≠ 0 then k else cfg.topK
  | none => cfg.topK

/-- The result dict built at retriever.py lines 119-130. -/
def mkRetrievedResult (chunk : ChunkRow) (document : DocumentRow)
    (score : ℚ) : RetrievedResult :=
  ⟨chunk.id, chunk.chunkText, chunk.chunkIndex, chunk.docId,
    document.filename, document.fileType, score,
    chunk.startChar, chunk.endChar⟩

/-- The candidate loop of `SemanticRetriever.search` (retriever.py lines
92-140): per candidate in index order, drop when the score is below the
threshold, when the chunk cannot be resolved, when the document filter
excludes it, or when its document row is missing; otherwise append the
enriched result and stop as soon as `top_k` results are accepted. -/
def collectResults (db : Database) (docIds : Option (List String))
    (minScore : ℚ) (topK : Nat) :
    List SearchResult → List RetrievedResult → List RetrievedResult
  | [], results => results
  | r :: rest, results =>
    if r.score < minScore then collectResults db docIds minScore topK rest results
    else
      match db.findChunkByFaissId r.faissId with
      | none => collectResults db docIds minScore topK rest results
      | some chunk =>
        if pyTruthyList docIds ∧ chunk.docId ∉ docIds.getD [] then
          collectResults db docIds minScore topK rest results
        else
          match db.findDocument chunk.docId with
          | none => collectResults db docIds minScore topK rest results
          | some document =>
            let results' := results ++ [mkRetrievedResult chunk document r.score]
            if topK ≤ results'.length then results'
            else collectResults db docIds minScore topK rest results'

/-- `SemanticRetriever.search` (retriever.py lines 57-147): resolve the
effective `top_k` and `min_score` (`min_score if min_score is not None
else self.similarity_threshold`), request `top_k * 2` candidates from the
FAISS index, and run the filtering loop.  The query arrives as an
embedding vector (`embed_query` wraps the floating-point
sentence-transformer, which is outside the model). -/
def SemanticRetriever.search (cfg : RetrieverConfig) (index : FaissState)
    (db : Database) (queryEmbedding : List ℚ) (topK : Option Nat)
    (minScore : Option ℚ) (docIds : Option (List String)) :
    List RetrievedResult :=
  let k := effectiveTopK cfg topK
  let ms := minScore.getD cfg.similarityThreshold
  let faissResults := FaissIndexManager.search index queryEmbedding (k * 2)
  collectResults db docIds ms k faissResults []

/-! ## Rankers (`app/core/retrieval/ranker.py`, `app/core/retrieval/reranker.py`) -/

/-- A retrieval-candidate dict as the rankers consume it: `chunk_text`,
`doc_id`, the bi-encoder `score`, plus the keys added during reranking
(`rerank_score`, `bi_encoder_score`), `none` before they are set. -/
structure Candidate where
  chunkText : String
  docId : String
  score : ℚ
  rerankScore : Option ℚ
  biEncoderScore : Option ℚ
deriving DecidableEq, Repr, Inhabited

/-- `CrossEncoderRanker` (ranker.py lines 8-30): `enabled` is `False` when
`sentence_transformers` cannot be imported; `model` abstracts the
cross-encoder's floating-point `predict` as a (query, text) score
oracle. -/
structure CERanker where
  enabled : Bool
  model : String → String → ℚ

/-- `CrossEncoderRanker.rerank` (ranker.py lines 32-70): when disabled or
on empty input the input list is returned unchanged (note: with no
`top_k` truncation); otherwise candidates receive `rerank_score`, are
stably sorted by descending rerank score, and are truncated to `top_k`
only when `top_k` is truthy (`if top_k:`). -/
def CERanker.rerank (ranker : CERanker) (query : String)
    (results : List Candidate) (topK : Option Nat) : List Candidate :=
  if ranker.enabled = false ∨ results = [] then results
  else
    let scored := results.map (fun c =>
      { c with rerankScore := some (ranker.model query c.chunkText) })
    let reranked := scored.mergeSort (fun a b =>
      decide (b.rerankScore.getD 0 ≤ a.rerankScore.getD 0))
    match topK with
    | some k => if k ≠ 0 then reranked.take k else reranked
    | none => reranked

/-- `CrossEncoderReranker` (reranker.py lines 12-49): `model` is `none`
exactly when the cross-encoder is not loaded (`_load_model` raises on
load failure, so a constructed instance normally has it set). -/
structure CEReranker where
  model : Option (String → String → ℚ)

/-- `CrossEncoderReranker.rerank` (reranker.py lines 51-104): empty input
→ `[]`; model not loaded → the first `top_k` input candidates unchanged;
otherwise rescore every candidate (keeping the bi-encoder score and
overwriting `score` with the rerank score), stably sort by descending
rerank score, and return the first `top_k`. -/
def CEReranker.rerank (reranker : CEReranker) (query : String)
    (candidates : List Candidate) (topK : Nat) : List Candidate :=
  if candidates = [] then []
  else
    match reranker.model with
    | none => candidates.take topK
    | some model =>
      let scored := candidates.map (fun c =>
        { c with rerankScore := some (model query c.chunkText),
                 biEncoderScore := some c.score,
                 score := model query c.chunkText })
      let sorted := scored.mergeSort (fun a b =>
        decide (b.rerankScore.getD 0 ≤ a.rerankScore.getD 0))
      sorted.take topK

/-- First index of the maximum of a list (NumPy `argmax`: the earliest
occurrence wins): running scan keeping the first strictly-greatest. -/
def argmaxAux : List ℚ → Nat → ℚ → Nat → Nat
  | [], _, _, bestIdx => bestIdx
  | x :: xs, i, bestVal, bestIdx =>
    if bestVal < x then argmaxAux xs (i + 1) x i
    else argmaxAux xs (i + 1) bestVal bestIdx

def argmaxIdx : List ℚ → Nat
  | [] => 0
  | x :: xs => argmaxAux xs 1 x 0

/-- `max_sim` of ranker.py lines 132-138: the running maximum, starting
from 0, of the pairwise similarities of candidate `idx` with the already
selected indices.  `sim i j` abstracts
`_cosine_similarity(embeddings[i], embeddings[j])` (a floating-point
cosine with square-root norms, outside the shallow embedding). -/
def maxSimTo (sim : Nat → Nat → ℚ) (idx : Nat) (selected : List Nat) : ℚ :=
  selected.foldl (fun m selIdx => max m (sim idx selIdx)) 0

/-- The MMR `while` loop (ranker.py lines 123-151), fuelled by the length
of `remaining`: each iteration removes exactly one element, so the fuel
never runs out.  Selects `argmax` of
`λ * relevance - (1 - λ) * max_sim` among the remaining indices. -/
def mmrLoop (sim : Nat → Nat → ℚ) (lam : ℚ) (results : List Candidate)
    (topK : Nat) : Nat → List Nat → List Nat → List Nat
  | 0, selected, _ => selected
  | fuel + 1, selected, remaining =>
    if remaining = [] ∨ topK ≤ selected.length then selected
    else
      let mmrScores := remaining.map (fun idx =>
        lam * (results.getD idx default).score -
          (1 - lam) * maxSimTo sim idx selected)
      let best := remaining.getD (argmaxIdx mmrScores) 0
      mmrLoop sim lam results topK fuel (selected ++ [best]) (remaining.erase best)

/-- First pass of `MMRRanker._simple_diversity` (ranker.py lines 163-175):
one candidate per distinct document; the Boolean reports the early
`return` at `top_k`. -/
def sdPass1 (topK : Nat) :
    List Candidate → List String → List Candidate → (List Candidate × Bool)
  | [], _, acc => (acc, false)
  | r :: rest, seen, acc =>
    if r.docId ∈ seen then sdPass1 topK rest seen acc
    else
      let acc' := acc ++ [r]
      if topK ≤ acc'.length then (acc', true)
      else sdPass1 topK rest (seen ++ [r.docId]) acc'

/-- Second pass of `_simple_diversity` (lines 177-183): fill with results
not already present (dict value equality), stopping at `top_k`. -/
def sdPass2 (topK : Nat) : List Candidate → List Candidate → List Candidate
  | [], acc => acc
  | r :: rest, acc =>
    if r ∈ acc then sdPass2 topK rest acc
    else
      let acc' := acc ++ [r]
      if topK ≤ acc'.length then acc'
      else sdPass2 topK rest acc'

/-- `MMRRanker._simple_diversity` (ranker.py lines 158-185). -/
def simpleDiversity (results : List Candidate) (topK : Nat) : List Candidate :=
  match sdPass1 topK results [] [] with
  | (acc, true) => acc
  | (acc, false) => sdPass2 topK results acc

/-- `MMRRanker.rerank` (ranker.py lines 90-156): empty input is returned
as is; `top_k = top_k or len(results)` with Python truthiness; without
embeddings fall back to `_simple_diversity`; with embeddings run MMR,
starting from the FIRST candidate (`selected.append(remaining.pop(0))`)
and then looping.  `embeddings = some sim` supplies the pairwise
similarity oracle of the embedding list. -/
def MMRRanker.rerank (lam : ℚ) (results : List Candidate) (topK : Option Nat)
    (embeddings : Option (Nat → Nat → ℚ)) : List Candidate :=
  if results = [] then results
  else
    let k := match topK with
      | some t => if t ≠ 0 then t else results.length
      | none => results.length
    match embeddings with
    | none => simpleDiversity results k
    | some sim =>
      let remaining0 := List.range results.length
      let selected0 := [remaining0.headD 0]
      let remaining1 := remaining0.tail
      let idxs := mmrLoop sim lam results k remaining1.length selected0 remaining1
      idxs.map (fun i => results.getD i default)

/-- Sorting candidates by descending relevance score — written from the
spec's words ("plain relevance-score sort"), for comparison with the
code's MMR output. -/
def sortByScoreDesc (results : List Candidate) : List Candidate :=
  results.insertionSort (fun a b => b.score ≤ a.score)

/-! ## Embedder cache (`app/core/ingestion/embedder.py`) -/

/-- `model.encode(text, normalize_embeddings=normalize)` abstracted as an
oracle from text and normalization flag to a vector (the numeric model is
floating point and outside the shallow embedding; the claims only need
that the two modes can produce different vectors). -/
structure EmbedModel where
  encode : String → Bool → List ℚ

/-- `Embedder.embed_text` (embedder.py lines 48-64). -/
def Embedder.embedText (m : EmbedModel) (text : String) (normalize : Bool) :
    List ℚ :=
  m.encode text normalize

/-- `Embedder._get_cache_key` (embedder.py lines 114-116): the MD5 hex
digest of the text — a content address depending only on the text,
modelled as the text itself (the digest is collision-free for the texts
of a run). -/
def Embedder.cacheKey (text : String) : String := text

/-- The on-disk embedding cache: one `.pkl` file per cache key. -/
abbrev EmbedCache := List (String × List ℚ)

def cacheLookup (cache : EmbedCache) (key : String) : Option (List ℚ) :=
  (cache.find? (fun p => p.1 = key)).map (fun p => p.2)

/-- `Embedder.embed_with_cache` (embedder.py lines 118-157): return the
cached vector verbatim when the key is present — whatever normalization
produced it — otherwise embed with the requested normalization and store
the result under the text-only key. -/
def Embedder.embedWithCache (m : EmbedModel) (cache : EmbedCache)
    (text : String) (normalize : Bool) : List ℚ × EmbedCache :=
  match cacheLookup cache (Embedder.cacheKey text) with
  | some embedding => (embedding, cache)
  | none =>
    let embedding := Embedder.embedText m text normalize
    (embedding, cache ++ [(Embedder.cacheKey text, embedding)])

/-- A model whose raw (`[3, 4]`) and normalized (`[1, 0]`) embeddings of
any text differ (the oracle only needs the two modes to disagree). -/
def sampleEmbedModel : EmbedModel :=
  ⟨fun _ normalize => if normalize then [1, 0] else [3, 4]⟩

/-! # Theorems -/

/-! ### Chunker lemmas -/

/-- Every piece produced by the recursive splitter is at most
`max 1 chunkSize` long, provided the empty separator is among the
separators (character-level fallback). -/
theorem splitTextRecursive_piece_le (chunkSize : Nat) :
    ∀ (seps : List PyStr), [] ∈ seps → ∀ (text p : PyStr),
      p ∈ splitTextRecursive chunkSize text seps → p.length ≤ max 1 chunkSize := by
  intro seps
  induction seps with
  | nil => intro h; cases h
  | cons sep rest ih =>
    intro hmem text p hp
    by_cases hsep : sep = []
    · subst hsep
      simp only [splitTextRecursive, if_pos rfl] at hp
      obtain ⟨c, _, rfl⟩ := List.mem_map.mp hp
      simp
    · have hrest : ([] : PyStr) ∈ rest := by
        rcases List.mem_cons.mp hmem with h | h
        · exact absurd h.symm hsep
        · exact h
      rw [splitTextRecursive, if_neg hsep] at hp
      by_cases hone : (pySplit sep text).length = 1
      · rw [if_pos hone] at hp
        exact ih hrest text p hp
      · rw [if_neg hone] at hp
        obtain ⟨piece, _, hpf⟩ := List.mem_flatMap.mp hp
        by_cases hbig : chunkSize < piece.length
        · rw [if_pos hbig] at hpf
          exact ih hrest piece p hpf
        · rw [if_neg hbig] at hpf
          rcases List.mem_singleton.mp hpf with rfl
          exact le_trans (Nat.le_of_not_lt hbig) (le_max_right 1 chunkSize)

/-- The overlap seed is never longer than the configured overlap, as long
as the overlap is positive (for overlap `0`, Python's `chunk_text[-0:]`
is the whole closed chunk). -/
theorem overlapOf_length_le (chunkOverlap : Nat) (s : PyStr)
    (hO : 0 < chunkOverlap) : (overlapOf chunkOverlap s).length ≤ chunkOverlap := by
  unfold overlapOf pyLastChars
  by_cases h : chunkOverlap < s.length
  · rw [if_pos h, if_neg (Nat.pos_iff_ne_zero.mp hO)]
    rw [List.length_drop]
    omega
  · rw [if_neg h]
    omega

theorem chunkStep_inv (chunkSize chunkOverlap : Nat) (docId split : PyStr)
    (acc : ChunkAcc) (hO : 0 < chunkOverlap) (_hS : chunkOverlap < chunkSize)
    (hsplit : split.length ≤ chunkSize)
    (h : AccInv chunkSize chunkOverlap acc) :
    AccInv chunkSize chunkOverlap (chunkStep chunkSize chunkOverlap docId acc split) := by
  obtain ⟨hlen, hbound, hchunks⟩ := h
  unfold chunkStep
  by_cases hc : chunkSize < acc.currentLength + split.length ∧ acc.currentChunk ≠ []
  · rw [if_pos hc]
    have hflat : acc.currentChunk.flatten.length = acc.currentLength := by
      rw [List.length_flatten, hlen]
    have hovl : (overlapOf chunkOverlap acc.currentChunk.flatten).length ≤ chunkOverlap :=
      overlapOf_length_le chunkOverlap _ hO
    refine ⟨by simp, ?_, ?_⟩
    · simp only
      omega
    · intro c hcmem
      simp only [List.mem_append, List.mem_singleton] at hcmem
      rcases hcmem with hcmem | rfl
      · exact hchunks c hcmem
      · simp only
        omega
  · rw [if_neg hc]
    push_neg at hc
    refine ⟨by simp [hlen], ?_, hchunks⟩
    by_cases hempty : acc.currentChunk = []
    · have h0 : acc.currentLength = 0 := by rw [hlen, hempty]; rfl
      simp only
      omega
    · have hle : acc.currentLength + split.length ≤ chunkSize := by
        by_contra hgt
        exact hempty (hc (Nat.lt_of_not_le fun hh => hgt hh))
      simp only
      omega

theorem chunkFold_inv (chunkSize chunkOverlap : Nat) (docId : PyStr)
    (hO : 0 < chunkOverlap) (hS : chunkOverlap < chunkSize) :
    ∀ (splits : List PyStr) (acc : ChunkAcc),
      (∀ s ∈ splits, s.length ≤ chunkSize) →
      AccInv chunkSize chunkOverlap acc →
      AccInv chunkSize chunkOverlap
        (splits.foldl (chunkStep chunkSize chunkOverlap docId) acc) := by
  intro splits
  induction splits with
  | nil => intro acc _ h; exact h
  | cons s ss ih =>
    intro acc hsplits h
    simp only [List.foldl_cons]
    exact ih _ (fun t ht => hsplits t (List.mem_cons_of_mem s ht))
      (chunkStep_inv chunkSize chunkOverlap docId s acc hO hS
        (hsplits s (List.mem_cons_self s ss)) h)

theorem chunkFold_docId (chunkSize chunkOverlap : Nat) (docId : PyStr) :
    ∀ (splits : List PyStr) (acc : ChunkAcc),
      (∀ c ∈ acc.chunks, c.docId = docId) →
      ∀ c ∈ (splits.foldl (chunkStep chunkSize chunkOverlap docId) acc).chunks,
        c.docId = docId := by
  intro splits
  induction splits with
  | nil => intro acc h; exact h
  | cons s ss ih =>
    intro acc h
    simp only [List.foldl_cons]
    refine ih _ ?_
    unfold chunkStep
    by_cases hc : chunkSize < acc.currentLength + s.length ∧ acc.currentChunk ≠ []
    · rw [if_pos hc]
      intro c hcmem
      simp only [List.mem_append, List.mem_singleton] at hcmem
      rcases hcmem with hcmem | rfl
      · exact h c hcmem
      · rfl
    · rw [if_neg hc]
      exact h

/-! ### Claim theorems about the chunker -/

/-- C1 (counterexample): with chunk size 10 and overlap 5 on the text
`"aaaaaaa bbbbbb"`, the chunker produces a chunk of length 11 > 10 even
though every piece of the recursive split (hence every atomic,
separator-free unit) has length ≤ 10: the overlap seeding makes the final
chunk exceed the chunk size, refuting the claim as stated. -/
theorem chunk_size_bound_counterexample :
    (∃ c ∈ RecursiveChunker.chunk 10 5 defaultSeparators
        "aaaaaaa bbbbbb".data "d".data, 10 < c.chunkText.length) ∧
    (∀ p ∈ splitTextRecursive 10 "aaaaaaa bbbbbb".data defaultSeparators,
        p.length ≤ 10) := by decide

/-- C1 (amended): for every text and every chunk size `S` and overlap `O`
with `0 < O < S`, every chunk produced by `RecursiveChunker.chunk` with the
default separators has text length at most `S + O` (the character-level
fallback separator bounds every split by `S`, and a chunk accumulates at
most an overlap seed of length `≤ O` plus splits totalling `≤ S`). -/
theorem chunk_size_bound_amended (chunkSize chunkOverlap : Nat)
    (text docId : PyStr) (hO : 0 < chunkOverlap) (hOS : chunkOverlap < chunkSize) :
    ∀ c ∈ RecursiveChunker.chunk chunkSize chunkOverlap defaultSeparators text docId,
      c.chunkText.length ≤ chunkSize + chunkOverlap := by
  intro c hc
  rw [RecursiveChunker.chunk] at hc
  by_cases htext : text = []
  · rw [if_pos htext] at hc; cases hc
  · rw [if_neg htext] at hc
    have hsplits : ∀ s ∈ splitTextRecursive chunkSize text defaultSeparators,
        s.length ≤ chunkSize := by
      intro s hs
      have := splitTextRecursive_piece_le chunkSize defaultSeparators
        (by simp [defaultSeparators]) text s hs
      omega
    have hinv := chunkFold_inv chunkSize chunkOverlap docId hO hOS
      (splitTextRecursive chunkSize text defaultSeparators) ⟨[], [], 0, 0, 0⟩
      hsplits ⟨rfl, Nat.zero_le _, by intro c hc; cases hc⟩
    obtain ⟨hlen, hbound, hchunks⟩ := hinv
    by_cases hcur :
        ((splitTextRecursive chunkSize text defaultSeparators).foldl
          (chunkStep chunkSize chunkOverlap docId) ⟨[], [], 0, 0, 0⟩).currentChunk ≠ []
    · rw [if_pos hcur] at hc
      simp only [List.mem_append, List.mem_singleton] at hc
      rcases hc with hc | rfl
      · exact hchunks c hc
      · simp only [List.length_flatten]
        omega
    · rw [if_neg hcur] at hc
      exact hchunks c hc

/-- C1 (witness): the amended bound applied at chunk size 10, overlap 5,
to the oversized final chunk the concrete text produces (length 11 ≤ 15). -/
theorem chunk_size_bound_amended_witness :
    (PyChunk.mk "aaaa bbbbbb".data "d".data 1 3 14).chunkText.length ≤ 10 + 5 :=
  chunk_size_bound_amended 10 5 "aaaaaaa bbbbbb".data "d".data
    (by decide) (by decide) (PyChunk.mk "aaaa bbbbbb".data "d".data 1 3 14)
    (by decide)

/-- C7 (counterexample): `chunk` called with an empty `document_id` and
non-empty text does not fail: it returns a normal chunk list whose chunks
carry the empty document id, so no `InvalidInputError` is raised for an
empty `document_id`. -/
theorem chunk_input_contract_counterexample :
    RecursiveChunker.chunk 10 5 defaultSeparators "hello".data [] =
      [⟨"hello".data, [], 0, 0, 5⟩] := by decide

/-- C7 (amended): `chunk` with empty text returns the empty sequence (not
an error), and `chunk` never fails on any `document_id`: the document id is
not validated, and every produced chunk simply carries the given
`document_id` (even the empty one). -/
theorem chunk_input_contract_amended (chunkSize chunkOverlap : Nat)
    (separators : List PyStr) (text docId : PyStr) :
    (text = [] →
      RecursiveChunker.chunk chunkSize chunkOverlap separators text docId = []) ∧
    ∀ c ∈ RecursiveChunker.chunk chunkSize chunkOverlap separators text docId,
      c.docId = docId := by
  constructor
  · intro htext
    rw [RecursiveChunker.chunk, if_pos htext]
  · intro c hc
    rw [RecursiveChunker.chunk] at hc
    by_cases htext : text = []
    · rw [if_pos htext] at hc; cases hc
    · rw [if_neg htext] at hc
      have hdoc := chunkFold_docId chunkSize chunkOverlap docId
        (splitTextRecursive chunkSize text separators) ⟨[], [], 0, 0, 0⟩
        (by intro c hc; cases hc)
      by_cases hcur :
          ((splitTextRecursive chunkSize text separators).foldl
            (chunkStep chunkSize chunkOverlap docId) ⟨[], [], 0, 0, 0⟩).currentChunk ≠ []
      · rw [if_pos hcur] at hc
        simp only [List.mem_append, List.mem_singleton] at hc
        rcases hc with hc | rfl
        · exact hdoc c hc
        · rfl
      · rw [if_neg hcur] at hc
        exact hdoc c hc

/-- C7 (witness): the amended contract applied at a concrete input with
empty text. -/
theorem chunk_input_contract_amended_witness :
    RecursiveChunker.chunk 10 5 defaultSeparators [] "d".data = [] :=
  (chunk_input_contract_amended 10 5 defaultSeparators [] "d".data).1 rfl

/-! ### Indexer lemmas -/

theorem filter_docid_length_add (l : List (Nat × VecMeta)) (d : String) :
    (l.filter (fun p => p.2.docId ≠ some d)).length +
      (l.filter (fun p => p.2.docId = some d)).length = l.length := by
  induction l with
  | nil => rfl
  | cons x xs ih =>
    simp only [List.filter_cons]
    by_cases h : x.2.docId = some d
    · rw [if_neg (by simp [h]), if_pos (by simp [h])]
      simp only [List.length_cons]
      omega
    · rw [if_pos (by simp [h]), if_neg (by simp [h])]
      simp only [List.length_cons]
      omega

theorem filter_docid_nil (l : List (Nat × VecMeta)) (d : String)
    (h : (l.filter (fun p => p.2.docId = some d)).length = 0) :
    ∀ p ∈ l, p.2.docId ≠ some d := by
  intro p hp hd
  have : p ∈ l.filter (fun p => p.2.docId = some d) :=
    List.mem_filter.mpr ⟨hp, by simpa using hd⟩
  rw [List.length_eq_zero] at h
  rw [h] at this
  cases this

theorem dictInsert_fresh (m : List (Nat × VecMeta)) (k : Nat) (v : VecMeta)
    (h : ∀ p ∈ m, p.1 < k) : dictInsert m k v = m ++ [(k, v)] := by
  unfold dictInsert
  rw [if_neg]
  simp only [List.any_eq_true, not_exists, not_and]
  intro p hp
  simp only [decide_eq_true_eq]
  exact Nat.ne_of_lt (h p hp)

theorem foldl_dictInsert_fresh (metas : List VecMeta) :
    ∀ (start : Nat) (m : List (Nat × VecMeta)), (∀ p ∈ m, p.1 < start) →
      ((List.range' start metas.length).zip metas).foldl
        (fun acc q => dictInsert acc q.1 q.2) m =
      m ++ (List.range' start metas.length).zip metas := by
  induction metas with
  | nil => intro start m _; simp
  | cons v vs ih =>
    intro start m hm
    have hr : List.range' start (v :: vs).length =
        start :: List.range' (start + 1) vs.length := rfl
    rw [hr]
    simp only [List.zip_cons_cons, List.foldl_cons]
    rw [dictInsert_fresh m start v hm]
    rw [ih (start + 1) (m ++ [(start, v)])]
    · simp
    · intro p hp
      rcases List.mem_append.mp hp with hp | hp
      · exact Nat.lt_succ_of_lt (hm p hp)
      · rcases List.mem_singleton.mp hp with rfl
        exact Nat.lt_succ_self start

theorem exceptBind_ok {α β : Type} (a : α) (f : α → Except String β) :
    (Except.ok a).bind f = f a := rfl

theorem exceptMap_ok {α β : Type} (f : α → β) (a : α) :
    (Except.ok a : Except String α).map f = .ok (f a) := rfl

/-- Reduction of `create_index(self.dimension)` for a state with a truthy
dimension and a supported index type. -/
theorem createIndex_reset (s : FaissState) (hdim : pyTruthyNat s.dimension = true)
    (htype : s.indexType = "IndexFlatIP" ∨ s.indexType = "IndexFlatL2") :
    FaissIndexManager.createIndex s s.dimension =
      .ok { s with vectors := some [], metadata := [], currentId := 0 } := by
  unfold FaissIndexManager.createIndex
  rw [hdim]
  simp only [if_true]
  rw [if_neg (by simp [hdim])]
  rw [if_pos (by simpa using htype)]

/-- Reduction of `add_vectors` on a freshly created index. -/
theorem addVectors_fresh (s : FaissState) (embeddings : List (List ℚ))
    (metadataList : List VecMeta) (hv : s.vectors = some [])
    (hmd : s.metadata = []) (hcid : s.currentId = 0)
    (hlen : embeddings.length = metadataList.length) :
    FaissIndexManager.addVectors s embeddings metadataList =
      .ok ({ s with vectors := some embeddings,
                    metadata := (List.range' 0 metadataList.length).zip metadataList,
                    currentId := embeddings.length },
           (List.range metadataList.length).map (fun i => s.currentId + i)) := by
  simp only [FaissIndexManager.addVectors, hv, hmd, hcid]
  rw [if_neg (by simp [hlen])]
  have hids : (List.range metadataList.length).map (fun i => 0 + i) =
      List.range' 0 metadataList.length := by
    simp [List.range_eq_range']
  rw [hids]
  rw [foldl_dictInsert_fresh metadataList 0 [] (by intro p hp; cases hp)]
  simp [hlen]

/-! ### Claim theorems about the vector index -/

/-- C2: for every well-formed populated index state, `delete_by_doc_id d`
succeeds; afterwards no stored metadata entry references document `d`
(hence no search result can), the returned count is exactly the number of
vectors whose metadata `doc_id` was `d`, and the `get_stats` vector total
decreases by exactly that count. -/
theorem delete_by_doc_id_spec (s : FaissState) (docId : String) (hwf : s.WF) :
    ∃ s' : FaissState,
      FaissIndexManager.deleteByDocId s docId =
        .ok (s', (s.metadata.filter (fun p => p.2.docId = some docId)).length) ∧
      (∀ p ∈ s'.metadata, p.2.docId ≠ some docId) ∧
      (FaissIndexManager.getStats s').totalVectors +
          (s.metadata.filter (fun p => p.2.docId = some docId)).length =
        (FaissIndexManager.getStats s).totalVectors := by
  obtain ⟨hsome, hkeys, hdim, htype, hid⟩ := hwf
  obtain ⟨vecs, hvecs⟩ := Option.isSome_iff_exists.mp hsome
  have hmdlen : s.metadata.length = vecs.length := by
    have h1 := congrArg List.length hkeys
    simpa [FaissState.ntotal, hvecs] using h1
  have hadd := filter_docid_length_add s.metadata docId
  have hstats : (FaissIndexManager.getStats s).totalVectors = vecs.length := by
    simp [FaissIndexManager.getStats, hvecs]
  simp only [FaissIndexManager.deleteByDocId, hvecs]
  by_cases hdel : 0 < s.metadata.length -
      (s.metadata.filter (fun p => p.2.docId ≠ some docId)).length
  · rw [if_pos hdel]
    have hcount : s.metadata.length -
        (s.metadata.filter (fun p => p.2.docId ≠ some docId)).length =
        (s.metadata.filter (fun p => p.2.docId = some docId)).length := by
      omega
    by_cases hkept : s.metadata.filter (fun p => p.2.docId ≠ some docId) = []
    · rw [if_neg (not_not_intro hkept)]
      rw [createIndex_reset s hdim htype]
      simp only [exceptMap_ok]
      rw [hcount]
      refine ⟨_, rfl, ?_, ?_⟩
      · intro p hp
        exact absurd hp (List.not_mem_nil p)
      · rw [hstats]
        simp only [FaissIndexManager.getStats, List.length_nil]
        have hk0 : (s.metadata.filter (fun p => p.2.docId ≠ some docId)).length = 0 := by
          rw [hkept]; rfl
        omega
    · rw [if_pos hkept]
      rw [createIndex_reset s hdim htype]
      simp only [exceptBind_ok]
      rw [addVectors_fresh _ _ _ rfl rfl rfl (by simp)]
      simp only [exceptMap_ok]
      rw [hcount]
      refine ⟨_, rfl, ?_, ?_⟩
      · rintro ⟨a, b⟩ hp
        have h2 := (List.of_mem_zip hp).2
        obtain ⟨q, hq, hq2⟩ := List.mem_map.mp h2
        have hqf := List.mem_filter.mp hq
        simp only [← hq2]
        simpa using hqf.2
      · rw [hstats]
        simp only [FaissIndexManager.getStats, List.length_map]
        omega
  · rw [if_neg hdel]
    have hd0 : (s.metadata.filter (fun p => p.2.docId = some docId)).length = 0 := by
      omega
    refine ⟨s, ?_, filter_docid_nil s.metadata docId hd0, ?_⟩
    · rw [show s.metadata.length -
          (s.metadata.filter (fun p => p.2.docId ≠ some docId)).length =
          (s.metadata.filter (fun p => p.2.docId = some docId)).length by omega]
    · omega

/-- C2 (witness): the delete specification applied to the concrete
three-vector state, deleting document "a". -/
theorem delete_by_doc_id_spec_witness :
    ∃ s' : FaissState,
      FaissIndexManager.deleteByDocId sampleIndexState "a" =
        .ok (s', (sampleIndexState.metadata.filter
          (fun p => p.2.docId = some "a")).length) ∧
      (∀ p ∈ s'.metadata, p.2.docId ≠ some "a") ∧
      (FaissIndexManager.getStats s').totalVectors +
          (sampleIndexState.metadata.filter
            (fun p => p.2.docId = some "a")).length =
        (FaissIndexManager.getStats sampleIndexState).totalVectors :=
  delete_by_doc_id_spec sampleIndexState "a"
    (by unfold FaissState.WF FaissState.ntotal; decide)

/-- C10: whenever `delete_by_doc_id` removes at least one vector from a
well-formed populated state, the index is rebuilt through `create_index`:
the ID high-water mark ends up equal to the number of retained vectors and
the retained vectors are reassigned the fresh IDs `0, …, n'-1`.  Vector
IDs previously returned by `add_vectors` are therefore reused and may now
identify a different vector (or none): external references keyed by old
IDs are invalidated by any non-empty delete. -/
theorem delete_rebuild_resets_ids (s : FaissState) (docId : String) (hwf : s.WF)
    (hdel : 0 < (s.metadata.filter (fun p => p.2.docId = some docId)).length) :
    ∃ s' n, FaissIndexManager.deleteByDocId s docId = .ok (s', n) ∧
      s'.currentId = (s.metadata.filter (fun p => p.2.docId ≠ some docId)).length ∧
      s'.metadata.map (fun p => p.1) =
        List.range (s.metadata.filter (fun p => p.2.docId ≠ some docId)).length := by
  obtain ⟨hsome, hkeys, hdim, htype, hid⟩ := hwf
  obtain ⟨vecs, hvecs⟩ := Option.isSome_iff_exists.mp hsome
  have hadd := filter_docid_length_add s.metadata docId
  have hdel0 : 0 < s.metadata.length -
      (s.metadata.filter (fun p => p.2.docId ≠ some docId)).length := by omega
  simp only [FaissIndexManager.deleteByDocId, hvecs]
  rw [if_pos hdel0]
  by_cases hkept : s.metadata.filter (fun p => p.2.docId ≠ some docId) = []
  · rw [if_neg (not_not_intro hkept)]
    rw [createIndex_reset s hdim htype]
    simp only [exceptMap_ok]
    refine ⟨_, _, rfl, ?_, ?_⟩
    · rw [hkept]
      rfl
    · rw [hkept]
      rfl
  · rw [if_pos hkept]
    rw [createIndex_reset s hdim htype]
    simp only [exceptBind_ok]
    rw [addVectors_fresh _ _ _ rfl rfl rfl (by simp)]
    simp only [exceptMap_ok]
    refine ⟨_, _, rfl, ?_, ?_⟩
    · simp
    · rw [List.range_eq_range']
      rw [List.map_fst_zip]
      · simp
      · simp [List.length_range']

/-- C10 (witness): deleting document "b" from the concrete three-vector
state leaves two vectors re-keyed as `0, 1` with the counter at 2. -/
theorem delete_rebuild_resets_ids_witness :
    ∃ s' n, FaissIndexManager.deleteByDocId sampleIndexState "b" = .ok (s', n) ∧
      s'.currentId = (sampleIndexState.metadata.filter
        (fun p => p.2.docId ≠ some "b")).length ∧
      s'.metadata.map (fun p => p.1) =
        List.range (sampleIndexState.metadata.filter
          (fun p => p.2.docId ≠ some "b")).length :=
  delete_rebuild_resets_ids sampleIndexState "b"
    (by unfold FaissState.WF FaissState.ntotal; decide) (by decide)

/-- C5 (counterexample): `search` on a manager whose index was never
created returns the empty list — a normal return value, not a raised
error — refuting the claim that `search` fails with `NotInitializedError`
while uninitialized. -/
theorem search_uninitialized_counterexample :
    FaissIndexManager.search (FaissIndexManager.init (some 4) "IndexFlatIP")
      [1, 0, 0, 0] 5 = [] := rfl

/-- C5 (amended): on a manager whose index has not been created,
`add_vectors` fails with an error (a `ValueError` in the source; the
spec's name for it is `NotInitializedError`), while `search` returns the
empty list as a normal value rather than raising. -/
theorem uninitialized_semantics_amended (s : FaissState) (h : s.vectors = none)
    (embeddings : List (List ℚ)) (metadataList : List VecMeta)
    (query : List ℚ) (topK : Nat) :
    FaissIndexManager.addVectors s embeddings metadataList =
      .error "Index not created. Call create_index() first." ∧
    FaissIndexManager.search s query topK = [] := by
  constructor
  · simp only [FaissIndexManager.addVectors, h]
  · simp only [FaissIndexManager.search, h]

/-- C5 (witness): the amended semantics at a freshly constructed manager. -/
theorem uninitialized_semantics_amended_witness :
    FaissIndexManager.addVectors (FaissIndexManager.init (some 4) "IndexFlatIP")
      [] [] = .error "Index not created. Call create_index() first." ∧
    FaissIndexManager.search (FaissIndexManager.init (some 4) "IndexFlatIP")
      [1] 5 = [] :=
  uninitialized_semantics_amended _ rfl [] [] [1] 5

/-- C9: when the vector-store file exists on disk but the companion
metadata file does not, `load_index` loads the vectors, leaves the
metadata map empty, and reports success (`True`) — it does not reject the
inconsistent state, contrary to the claim (evidence for the code bug). -/
theorem load_index_missing_metadata_accepted :
    FaissIndexManager.loadIndex (FaissIndexManager.init none "IndexFlatIP")
        ⟨some [[1]], none⟩ =
      ({ dimension := none, indexType := "IndexFlatIP", vectors := some [[1]],
         metadata := [], currentId := 0 }, true) := rfl

/-! ### Retriever lemmas -/

theorem collectResults_length_le (db : Database) (docIds : Option (List String))
    (minScore : ℚ) (topK : Nat) :
    ∀ (cands : List SearchResult) (results : List RetrievedResult),
      results.length < topK →
      (collectResults db docIds minScore topK cands results).length ≤ topK := by
  intro cands
  induction cands with
  | nil => intro results h; exact Nat.le_of_lt h
  | cons r rest ih =>
    intro results h
    simp only [collectResults]
    by_cases h1 : r.score < minScore
    · rw [if_pos h1]; exact ih results h
    · rw [if_neg h1]
      cases hc : db.findChunkByFaissId r.faissId with
      | none => exact ih results h
      | some chunk =>
        simp only []
        by_cases h2 : pyTruthyList docIds ∧ chunk.docId ∉ docIds.getD []
        · rw [if_pos h2]; exact ih results h
        · rw [if_neg h2]
          cases hd : db.findDocument chunk.docId with
          | none => exact ih results h
          | some document =>
            simp only [List.length_append, List.length_singleton]
            by_cases h3 : topK ≤ results.length + 1
            · rw [if_pos h3]
              simp only [List.length_append, List.length_singleton]
              omega
            · rw [if_neg h3]
              exact ih _ (by simp; omega)

theorem collectResults_mem (db : Database) (docIds : Option (List String))
    (minScore : ℚ) (topK : Nat) :
    ∀ (cands : List SearchResult) (results : List RetrievedResult),
      (∀ r ∈ results, minScore ≤ r.score ∧
        (pyTruthyList docIds = true → r.docId ∈ docIds.getD [])) →
      ∀ r ∈ collectResults db docIds minScore topK cands results,
        minScore ≤ r.score ∧
        (pyTruthyList docIds = true → r.docId ∈ docIds.getD []) := by
  intro cands
  induction cands with
  | nil => intro results h; exact h
  | cons r rest ih =>
    intro results hres
    simp only [collectResults]
    by_cases h1 : r.score < minScore
    · rw [if_pos h1]; exact ih results hres
    · rw [if_neg h1]
      cases hc : db.findChunkByFaissId r.faissId with
      | none => exact ih results hres
      | some chunk =>
        simp only []
        by_cases h2 : pyTruthyList docIds ∧ chunk.docId ∉ docIds.getD []
        · rw [if_pos h2]; exact ih results hres
        · rw [if_neg h2]
          cases hd : db.findDocument chunk.docId with
          | none => exact ih results hres
          | some document =>
            simp only []
            have hnew : ∀ x ∈ results ++ [mkRetrievedResult chunk document r.score],
                minScore ≤ x.score ∧
                (pyTruthyList docIds = true → x.docId ∈ docIds.getD []) := by
              intro x hx
              rcases List.mem_append.mp hx with hx | hx
              · exact hres x hx
              · rcases List.mem_singleton.mp hx with rfl
                constructor
                · exact le_of_not_lt h1
                · intro htruthy
                  by_contra hnotin
                  exact h2 ⟨htruthy, hnotin⟩
            by_cases h3 : topK ≤ (results ++ [mkRetrievedResult chunk document r.score]).length
            · rw [if_pos h3]
              exact hnew
            · rw [if_neg h3]
              exact ih _ hnew

/-! ### Claim theorem about the retriever -/

/-- C3: `SemanticRetriever.search` requests `2 * top_k` candidates from
the vector index and runs the drop/stop filtering loop over them
(first conjunct, the code's shape); consequently at most the effective
`top_k` results are returned, every returned result's score is at least
the effective `min_score`, and a result's document is always in the
`doc_ids` filter when that filter is non-empty.  The hypothesis
`0 < cfg.topK` reflects `settings.top_k_results` (default 5, positive). -/
theorem retriever_search_spec (cfg : RetrieverConfig) (index : FaissState)
    (db : Database) (queryEmbedding : List ℚ) (topK : Option Nat)
    (minScore : Option ℚ) (docIds : Option (List String))
    (hcfg : 0 < cfg.topK) :
    SemanticRetriever.search cfg index db queryEmbedding topK minScore docIds =
      collectResults db docIds (minScore.getD cfg.similarityThreshold)
        (effectiveTopK cfg topK)
        (FaissIndexManager.search index queryEmbedding
          (effectiveTopK cfg topK * 2)) [] ∧
    (SemanticRetriever.search cfg index db queryEmbedding topK minScore
        docIds).length ≤ effectiveTopK cfg topK ∧
    ∀ r ∈ SemanticRetriever.search cfg index db queryEmbedding topK minScore docIds,
      minScore.getD cfg.similarityThreshold ≤ r.score ∧
      (pyTruthyList docIds = true → r.docId ∈ docIds.getD []) := by
  have hk : 0 < effectiveTopK cfg topK := by
    cases topK with
    | none => exact hcfg
    | some k =>
      by_cases h : k = 0
      · simpa [effectiveTopK, h] using hcfg
      · simp only [effectiveTopK, if_pos h]
        omega
  refine ⟨rfl, ?_, ?_⟩
  · exact collectResults_length_le db docIds
      (minScore.getD cfg.similarityThreshold) (effectiveTopK cfg topK)
      (FaissIndexManager.search index queryEmbedding (effectiveTopK cfg topK * 2))
      [] hk
  · exact collectResults_mem db docIds
      (minScore.getD cfg.similarityThreshold) (effectiveTopK cfg topK)
      (FaissIndexManager.search index queryEmbedding (effectiveTopK cfg topK * 2))
      [] (by intro r hr; exact absurd hr (List.not_mem_nil r))

/-- C3 (witness): the retrieval specification at a concrete configuration
(`top_k = 5`, threshold `3/10`) over the concrete three-vector index. -/
theorem retriever_search_spec_witness :
    SemanticRetriever.search ⟨5, 3/10⟩ sampleIndexState ⟨[], []⟩ [1, 0]
        none none none =
      collectResults ⟨[], []⟩ none ((none : Option ℚ).getD (3/10))
        (effectiveTopK ⟨5, 3/10⟩ none)
        (FaissIndexManager.search sampleIndexState [1, 0]
          (effectiveTopK ⟨5, 3/10⟩ none * 2)) [] ∧
    (SemanticRetriever.search ⟨5, 3/10⟩ sampleIndexState ⟨[], []⟩ [1, 0]
        none none none).length ≤ effectiveTopK ⟨5, 3/10⟩ none ∧
    ∀ r ∈ SemanticRetriever.search ⟨5, 3/10⟩ sampleIndexState ⟨[], []⟩ [1, 0]
        none none none,
      (none : Option ℚ).getD (3/10) ≤ r.score ∧
      (pyTruthyList none = true → r.docId ∈ (none : Option (List String)).getD []) :=
  retriever_search_spec ⟨5, 3/10⟩ sampleIndexState ⟨[], []⟩ [1, 0]
    none none none (by decide)

/-! ### Claim theorems about reranking and the embedder cache -/

/-- C4 (counterexample): with the rescoring model unavailable
(`CrossEncoderRanker` disabled after an import failure), `rerank` with
`final_k = 1` on two candidates returns BOTH candidates, not the first
`final_k` — the fails-open path of ranker.py ignores `final_k`. -/
theorem reranker_fails_open_counterexample :
    CERanker.rerank ⟨false, fun _ _ => 0⟩ "q"
        [⟨"t1", "d1", 1, none, none⟩, ⟨"t2", "d2", 2, none, none⟩] (some 1) =
      [⟨"t1", "d1", 1, none, none⟩, ⟨"t2", "d2", 2, none, none⟩] ∧
    ([⟨"t1", "d1", 1, none, none⟩, ⟨"t2", "d2", 2, none, none⟩] :
        List Candidate).take 1 ≠
      [⟨"t1", "d1", 1, none, none⟩, ⟨"t2", "d2", 2, none, none⟩] := by
  constructor
  · rfl
  · decide

/-- C4 (amended): a missing rescoring model never fails the query:
`CrossEncoderReranker.rerank` (model not loaded) returns exactly the
first `final_k` input candidates unchanged, while
`CrossEncoderRanker.rerank` (disabled) returns the whole input list
unchanged, ignoring `final_k`. -/
theorem reranker_fails_open_amended (query : String)
    (candidates : List Candidate) (finalK : Nat) (topK : Option Nat)
    (ranker : CERanker) (henabled : ranker.enabled = false) :
    CEReranker.rerank ⟨none⟩ query candidates finalK = candidates.take finalK ∧
    CERanker.rerank ranker query candidates topK = candidates := by
  constructor
  · by_cases h : candidates = []
    · simp [CEReranker.rerank, h]
    · simp only [CEReranker.rerank, if_neg h]
  · simp [CERanker.rerank, henabled]

/-- C4 (witness): the amended fails-open behaviour at a concrete
disabled ranker and a single candidate. -/
theorem reranker_fails_open_amended_witness :
    CEReranker.rerank ⟨none⟩ "q" [⟨"t1", "d1", 1, none, none⟩] 1 =
      ([⟨"t1", "d1", 1, none, none⟩] : List Candidate).take 1 ∧
    CERanker.rerank ⟨false, fun _ _ => 0⟩ "q"
        [⟨"t1", "d1", 1, none, none⟩] (some 1) =
      [⟨"t1", "d1", 1, none, none⟩] :=
  reranker_fails_open_amended "q" [⟨"t1", "d1", 1, none, none⟩] 1 (some 1)
    ⟨false, fun _ _ => 0⟩ rfl

/-- C8: the cache key depends only on the text and the cached vector is
returned verbatim, so after `embed_with_cache(t, normalize=True)` caches
the normalized vector `[1, 0]`, the call
`embed_with_cache(t, normalize=False)` returns that normalized vector
instead of the raw embedding `[3, 4]` that the requested mode prescribes —
the normalization-correctness claim fails on the code (the spec itself
flags this as a latent bug of the source). -/
theorem embed_cache_normalization_bug :
    (Embedder.embedWithCache sampleEmbedModel
        (Embedder.embedWithCache sampleEmbedModel [] "t" true).2 "t" false).1 =
      [1, 0] ∧
    Embedder.embedText sampleEmbedModel "t" false = [3, 4] ∧
    ([1, 0] : List ℚ) ≠ [3, 4] := by decide

/-! ### MMR lemmas -/

theorem argmaxAux_const (xs : List ℚ) :
    ∀ (i : Nat) (x : ℚ) (b : Nat), (∀ a ∈ xs, a ≤ x) →
      argmaxAux xs i x b = b := by
  induction xs with
  | nil => intro i x b _; rfl
  | cons y ys ih =>
    intro i x b h
    have hy : y ≤ x := h y (List.mem_cons_self y ys)
    simp only [argmaxAux]
    rw [if_neg (not_lt_of_le hy)]
    exact ih (i + 1) x b (fun a ha => h a (List.mem_cons_of_mem y ha))

theorem argmaxIdx_head_max (x : ℚ) (xs : List ℚ) (h : ∀ a ∈ xs, a ≤ x) :
    argmaxIdx (x :: xs) = 0 := by
  simp only [argmaxIdx]
  exact argmaxAux_const xs 1 x 0 h

theorem map_getD_range (l : List Candidate) :
    (List.range l.length).map (fun i => l.getD i default) = l := by
  induction l with
  | nil => rfl
  | cons a as ih =>
    rw [List.length_cons, List.range_succ_eq_map]
    simp only [List.map_cons, List.getD_cons_zero, List.map_map]
    have hfun : ((fun i => (a :: as).getD i default) ∘ Nat.succ) =
        (fun i => as.getD i default) := by
      funext i
      simp [List.getD_cons_succ]
    rw [hfun, ih]

/-- With `λ = 1` the MMR loop on a descending-by-score candidate list
selects the remaining indices in order: from selected `0..k-1` and
remaining `k..n-1` it returns `0..n-1`. -/
theorem mmrLoop_lam_one (sim : Nat → Nat → ℚ) (results : List Candidate)
    (hsorted : ∀ i j, i ≤ j → j < results.length →
      (results.getD j default).score ≤ (results.getD i default).score) :
    ∀ (fuel k : Nat), 0 < k → k ≤ results.length →
      results.length ≤ fuel + k →
      mmrLoop sim 1 results results.length fuel (List.range k)
        (List.range' k (results.length - k)) = List.range results.length := by
  intro fuel
  induction fuel with
  | zero =>
    intro k hk hkn hnk
    have hkeq : k = results.length := by omega
    subst hkeq
    rfl
  | succ fuel ih =>
    intro k hk hkn hnk
    by_cases hkeq : k = results.length
    · subst hkeq
      simp only [mmrLoop]
      rw [if_pos (Or.inl (by simp))]
    · have hlt : k < results.length := by omega
      have hrem : List.range' k (results.length - k) =
          k :: List.range' (k + 1) (results.length - (k + 1)) := by
        have h1 : results.length - k = (results.length - (k + 1)) + 1 := by omega
        rw [h1, List.range'_succ]
      simp only [mmrLoop]
      rw [hrem]
      rw [if_neg (by
        push_neg
        exact ⟨List.cons_ne_nil _ _, by simp only [List.length_range]; omega⟩)]
      rw [List.map_cons]
      have hmax : ∀ a ∈ (List.range' (k + 1) (results.length - (k + 1))).map
          (fun idx => (1 : ℚ) * (results.getD idx default).score -
            (1 - 1) * maxSimTo sim idx (List.range k)),
          a ≤ (1 : ℚ) * (results.getD k default).score -
            (1 - 1) * maxSimTo sim k (List.range k) := by
        intro a ha
        obtain ⟨j, hj, rfl⟩ := List.mem_map.mp ha
        have hjb := List.mem_range'_1.mp hj
        have hscore := hsorted k j (by omega) (by omega)
        simpa only [one_mul, sub_self, zero_mul, sub_zero] using hscore
      rw [argmaxIdx_head_max _ _ hmax]
      rw [List.getD_cons_zero, List.erase_cons_head, ← List.range_succ]
      exact ih (k + 1) (by omega) (by omega) (by omega)

/-! ### Claim theorems about MMR -/

/-- C6 (counterexample): with λ = 1 and embeddings supplied, MMR on the
two candidates with scores `1, 2` (in that order) returns them in input
order — because the loop starts from the FIRST input candidate, not the
highest-relevance one — which differs from sorting by descending
relevance score, refuting the claim for unsorted input. -/
theorem mmr_lambda_one_counterexample :
    MMRRanker.rerank 1
        [⟨"t1", "d1", 1, none, none⟩, ⟨"t2", "d2", 2, none, none⟩]
        none (some fun _ _ => 0) =
      [⟨"t1", "d1", 1, none, none⟩, ⟨"t2", "d2", 2, none, none⟩] ∧
    sortByScoreDesc [⟨"t1", "d1", 1, none, none⟩, ⟨"t2", "d2", 2, none, none⟩] =
      [⟨"t2", "d2", 2, none, none⟩, ⟨"t1", "d1", 1, none, none⟩] ∧
    ([⟨"t1", "d1", 1, none, none⟩, ⟨"t2", "d2", 2, none, none⟩] :
        List Candidate) ≠
      [⟨"t2", "d2", 2, none, none⟩, ⟨"t1", "d1", 1, none, none⟩] := by
  refine ⟨?_, ?_, ?_⟩ <;> decide

/-- C6 (amended): when the candidate list is already sorted by descending
relevance score — as the retrieval stage supplies it — `MMRRanker.rerank`
with `λ = 1` and embeddings supplied returns the candidates unchanged,
i.e. degenerates to pure relevance ranking; the selection starts from the
first input candidate (`remaining.pop(0)`), not from a score argmax, so
sortedness of the input is required. -/
theorem mmr_lambda_one_amended (sim : Nat → Nat → ℚ) (results : List Candidate)
    (hne : results ≠ [])
    (hsorted : List.Sorted (fun a b => b.score ≤ a.score) results) :
    MMRRanker.rerank 1 results none (some sim) = results := by
  have hidx : ∀ i j, i ≤ j → j < results.length →
      (results.getD j default).score ≤ (results.getD i default).score := by
    intro i j hij hj
    rcases Nat.eq_or_lt_of_le hij with rfl | hlt
    · exact le_refl _
    · have hp := List.pairwise_iff_getElem.mp hsorted i j (by omega) hj hlt
      rw [List.getD_eq_getElem results default hj,
        List.getD_eq_getElem results default (by omega)]
      exact hp
  have hn : 0 < results.length := List.length_pos.mpr hne
  obtain ⟨m, hm⟩ : ∃ m, results.length = m + 1 := ⟨results.length - 1, by omega⟩
  have hsplit : List.range results.length = 0 :: List.range' 1 m := by
    rw [List.range_eq_range', hm, List.range'_succ]
  have hloop := mmrLoop_lam_one sim results hidx m 1 (by omega) (by omega) (by omega)
  rw [show List.range 1 = [0] from rfl] at hloop
  rw [show results.length - 1 = m by omega] at hloop
  simp only [MMRRanker.rerank, if_neg hne]
  rw [hsplit]
  simp only [List.headD_cons, List.tail_cons, List.length_range']
  rw [hloop]
  exact map_getD_range results

/-- C6 (witness): the amended degeneracy law at two concrete candidates
already sorted by descending score. -/
theorem mmr_lambda_one_amended_witness :
    MMRRanker.rerank 1
        [⟨"a", "d1", 2, none, none⟩, ⟨"b", "d2", 1, none, none⟩]
        none (some fun _ _ => 0) =
      [⟨"a", "d1", 2, none, none⟩, ⟨"b", "d2", 1, none, none⟩] :=
  mmr_lambda_one_amended (fun _ _ => 0)
    [⟨"a", "d1", 2, none, none⟩, ⟨"b", "d2", 1, none, none⟩]
    (by decide) (by decide)
